import Mathlib

/-!
Verification of the dictionary import pipeline of the english_read
repository: format detection, the dictionary parsers and the batch import
orchestrator, embedded shallowly from `src/backend/dictionary_parser.py`
and `src/backend/dictionary_importer.py`.

Python strings are modelled as Lean `String`, rows and JSON objects as
association lists, the lazy `parse()` generators as the finite list of
entries they yield, and the storage gateway as a trace of the calls the
orchestrator makes into it.
-/

namespace EnglishRead

/-- The characters Python `str.strip()` and the regex class `\s` treat as
whitespace (ASCII range; the inputs of interest contain no exotic Unicode
spaces). -/
def pyIsSpace (c : Char) : Bool :=
  c == ' ' || c == '\t' || c == '\n' || c == '\r' || c == '\x0b' || c == '\x0c'

/-- Python `str.strip()` on a character list: drop whitespace from the
front, then from the back. -/
def stripData (l : List Char) : List Char :=
  ((l.dropWhile pyIsSpace).reverse.dropWhile pyIsSpace).reverse

/-- Python `str.strip()`. -/
def pyStrip (s : String) : String :=
  String.mk (stripData s.data)

/-- `listIsPre pat l` is true when `pat` is an initial segment of `l`. -/
def listIsPre : List Char → List Char → Bool
  | [], _ => true
  | _ :: _, [] => false
  | a :: pat, b :: l => a == b && listIsPre pat l

/-- `listHasSub pat l` is true when `pat` occurs contiguously inside `l`
(Python's `pat in l` on strings). -/
def listHasSub (pat : List Char) : List Char → Bool
  | [] => pat.isEmpty
  | c :: rest => listIsPre pat (c :: rest) || listHasSub pat rest

/-- Python `needle in hay` for strings. -/
def pyInStr (needle hay : String) : Bool :=
  listHasSub needle.data hay.data

/-- Python `str.lower()` (character-wise, as in `path.suffix.lower()`). -/
def pyLower (s : String) : String :=
  String.mk (s.data.map Char.toLower)

/-- Python `str.upper()`. -/
def pyUpper (s : String) : String :=
  String.mk (s.data.map Char.toUpper)

/-- Python `c in s` for a single character. -/
def pyHasChar (c : Char) (s : String) : Bool :=
  s.data.contains c

/-- Shallow embedding of `DictionaryParser.detect_format`
(src/backend/dictionary_parser.py, lines 24-55).  The path argument is
abstracted to its extension (Python `Path(file_path).suffix`); `firstLine`
is the first line of the file, `none` standing for any failure to read it
(the `except Exception: pass` branch).  Decoding errors inside the line
are already suppressed in the source by `errors='ignore'`. -/
def detect_format (ext : String) (firstLine : Option String) : String :=
  if pyLower ext = ".mdx" then "mdx"
  else if pyLower ext = ".json" then "json"
  else if pyLower ext = ".csv" then
    match firstLine with
    | some line =>
        if pyInStr "word" line && pyInStr "translation" line then
          if pyInStr "phonetic" line || pyInStr "exchange" line then "ecdict"
          else "csv"
        else "csv"
    | none => "csv"
  else "unknown"

/-- The fixed `ECDICTParser.EXCHANGE_TYPES` code table
(src/backend/dictionary_parser.py, lines 160-170), as an insertion-ordered
association list, the model used for every Python `dict` in this file. -/
def EXCHANGE_TYPES : List (String × String) :=
  [("p", "past"), ("d", "done"), ("i", "ing"), ("3", "third"),
   ("r", "er"), ("t", "est"), ("s", "plural"), ("0", "lemma"), ("1", "lemma")]

/-- Python `dict.get(k, dflt)` on an insertion-ordered association list. -/
def dictGetD (m : List (String × String)) (k dflt : String) : String :=
  match m with
  | [] => dflt
  | (k0, v0) :: rest => if k0 = k then v0 else dictGetD rest k dflt

/-- Python `d[k] = v` on an insertion-ordered association list: overwrite in
place when the key exists, else append. -/
def dictAssign (m : List (String × String)) (k v : String) :
    List (String × String) :=
  match m with
  | [] => [(k, v)]
  | (k0, v0) :: rest =>
      if k0 = k then (k0, v) :: rest else (k0, v0) :: dictAssign rest k v

/-- Auxiliary for `splitFirstColon`: `acc` is the reversed prefix read so
far; on the first separator the remainder is returned whole. -/
def splitFirstAux (sep : Char) : List Char → List Char → List Char × List Char
  | [], acc => (acc.reverse, [])
  | c :: rest, acc =>
      if c == sep then (acc.reverse, rest) else splitFirstAux sep rest (c :: acc)

/-- Python `s.split(c, 1)` for a string known to contain `c`: the part
before the first separator, and everything after it. -/
def splitFirstColon (s : String) : String × String :=
  let p := splitFirstAux ':' s.data []
  (String.mk p.1, String.mk p.2)

/-- Auxiliary for `pySplitChar`: split a character list on every occurrence
of `sep`, keeping empty segments (Python `str.split(sep)`). -/
def splitCharAux (sep : Char) : List Char → List Char → List String
  | [], acc => [String.mk acc.reverse]
  | c :: rest, acc =>
      if c == sep then String.mk acc.reverse :: splitCharAux sep rest []
      else splitCharAux sep rest (c :: acc)

/-- Python `s.split(sep)` for a one-character separator. -/
def pySplitChar (sep : Char) (s : String) : List String :=
  splitCharAux sep s.data []

/-- Shallow embedding of `ECDICTParser._parse_exchange`
(src/backend/dictionary_parser.py, lines 175-196): split the field on `/`,
keep the segments containing a colon, map each code through
`EXCHANGE_TYPES` with the literal code as fallback, and build the mapping
in segment order; empty input or an empty mapping gives `none`. -/
def parse_exchange (exchange_str : String) : Option (List (String × String)) :=
  if exchange_str = "" then none
  else
    let parts := pySplitChar '/' exchange_str
    let result := parts.foldl (fun m part =>
      if pyHasChar ':' part then
        let p := splitFirstColon part
        dictAssign m (dictGetD EXCHANGE_TYPES p.1 p.1) p.2
      else m) []
    if result = [] then none else some result

/-- Auxiliary list form of Python `str.split()` (split on whitespace runs,
dropping empty tokens); `acc` is the current token reversed. -/
def splitWsAux : List Char → List Char → List (List Char)
  | [], acc => if acc.isEmpty then [] else [acc.reverse]
  | c :: rest, acc =>
      if pyIsSpace c then
        if acc.isEmpty then splitWsAux rest [] else acc.reverse :: splitWsAux rest []
      else splitWsAux rest (c :: acc)

/-- Python `str.split()` with no argument. -/
def pySplitWs (s : String) : List String :=
  (splitWsAux s.data []).map String.mk

/-- Shallow embedding of `ECDICTParser._parse_tags`
(src/backend/dictionary_parser.py, lines 198-204). -/
def parse_tags (tag_str : String) : Option (List String) :=
  if tag_str = "" then none
  else
    let tags := ((pySplitWs tag_str).filter (fun t => ¬(pyStrip t = ""))).map
      (fun t => pyUpper (pyStrip t))
    if tags = [] then none else some tags

/-- Auxiliary for `get_preview`, mirroring the Python loop
`for i, entry in enumerate(self.parse())`: each step pulls one item from
the generator; the second component counts the items pulled. -/
def getPreviewAux {α : Type} (count : Nat) : Nat → List α → List α × Nat
  | _, [] => ([], 0)
  | i, x :: rest =>
      if count ≤ i then ([], 1)
      else
        let r := getPreviewAux count (i + 1) rest
        (x :: r.1, r.2 + 1)

/-- Shallow embedding of `DictionaryParser.get_preview`
(src/backend/dictionary_parser.py, lines 131-138), over the list of entries
the underlying `parse()` generator would yield.  First component: the
returned preview list; second component: how many items were pulled from
the generator. -/
def get_preview {α : Type} (count : Nat) (entries : List α) : List α × Nat :=
  getPreviewAux count 0 entries

/-- A parsed JSON value, the input shape of `JSONParser` after
`json.load`. -/
inductive JValue where
  | str (s : String)
  | num (n : Int)
  | bool (b : Bool)
  | null
  | arr (items : List JValue)
  | obj (fields : List (String × JValue))

/-- Python truthiness of a JSON value. -/
def jTruthy : JValue → Bool
  | .str s => s != ""
  | .num n => n != 0
  | .bool b => b
  | .null => false
  | .arr items => !items.isEmpty
  | .obj fields => !fields.isEmpty

/-- Python `dict.get(k)` on a JSON object. -/
def jGet (m : List (String × JValue)) (k : String) : Option JValue :=
  match m with
  | [] => none
  | (k0, v) :: rest => if k0 = k then some v else jGet rest k

/-- Python `dict.get(k, dflt)` on a JSON object. -/
def jGetD (m : List (String × JValue)) (k : String) (dflt : JValue) : JValue :=
  match jGet m k with
  | some v => v
  | none => dflt

/-- Python `d[k] = v` on a JSON object (insertion-ordered). -/
def jAssign (m : List (String × JValue)) (k : String) (v : JValue) :
    List (String × JValue) :=
  match m with
  | [] => [(k, v)]
  | (k0, v0) :: rest =>
      if k0 = k then (k0, v) :: rest else (k0, v0) :: jAssign rest k v

/-- One normalized dictionary entry as produced by the parsers: the Python
dict `{word: ..., translation: ..., <extras>}`.  The translation slot keeps
the raw JSON value because the flat-object JSON branch stores whatever
value it finds there. -/
structure Entry where
  word : String
  translation : JValue
  extras : List (String × JValue)

/-- The optional keys the JSON array branch copies through
(src/backend/dictionary_parser.py, lines 393-394). -/
def JSON_COPY_KEYS : List String :=
  ["phonetic_uk", "phonetic_us", "phonetic", "pos",
   "definition", "exchange", "examples", "tags"]

/-- The copy loop of the JSON array branch: keep a key when it is present
and truthy, renaming bare `phonetic` to `phonetic_uk`. -/
def jsonArrayExtras (item : List (String × JValue)) : List (String × JValue) :=
  JSON_COPY_KEYS.foldl (fun ex key =>
    match jGet item key with
    | some v =>
        if jTruthy v then
          if key = "phonetic" then jAssign ex "phonetic_uk" v else jAssign ex key v
        else ex
    | none => ex) []

/-- One object of the JSON array form (src/backend/dictionary_parser.py,
lines 385-401).  `.error` models the `AttributeError` the source raises
when `.strip()` is called on a non-string; `.ok none` is a skipped item. -/
def jsonArrayItem (item : List (String × JValue)) : Except String (Option Entry) :=
  match jGetD item "word" (.str "") with
  | .str w =>
      match jGetD item "translation" (jGetD item "trans" (.str "")) with
      | .str t =>
          let word := pyStrip w
          let translation := pyStrip t
          if word ≠ "" ∧ translation ≠ "" then
            .ok (some ⟨word, .str translation, jsonArrayExtras item⟩)
          else .ok none
      | _ => .error "AttributeError"
  | _ => .error "AttributeError"

/-- The JSON array branch as a generator run: the list of entries yielded
before the generator either finishes (`none`) or raises (`some msg`).
Non-object items are skipped by the `isinstance` guard. -/
def jsonArrParse : List JValue → List Entry × Option String
  | [] => ([], none)
  | item :: rest =>
      match item with
      | .obj fields =>
          match jsonArrayItem fields with
          | .error e => ([], some e)
          | .ok none => jsonArrParse rest
          | .ok (some entry) =>
              let r := jsonArrParse rest
              (entry :: r.1, r.2)
      | _ => jsonArrParse rest

/-- The optional keys the JSON flat-object branch copies through
(src/backend/dictionary_parser.py, line 412). -/
def JSON_OBJ_COPY_KEYS : List String :=
  ["phonetic_uk", "phonetic_us", "pos", "definition"]

/-- The JSON flat-object branch (src/backend/dictionary_parser.py, lines
403-415): a string value is yielded directly as the translation, an object
value is yielded whenever its translation field is truthy; no trimming and
no emptiness check happen in this branch. -/
def jsonObjParse : List (String × JValue) → List Entry
  | [] => []
  | (word, value) :: rest =>
      match value with
      | .str s => ⟨word, .str s, []⟩ :: jsonObjParse rest
      | .obj fields =>
          let translation := jGetD fields "translation" (jGetD fields "trans" (.str ""))
          if jTruthy translation then
            let extras := JSON_OBJ_COPY_KEYS.foldl (fun ex key =>
              match jGet fields key with
              | some v => jAssign ex key v
              | none => ex) []
            ⟨word, translation, extras⟩ :: jsonObjParse rest
          else jsonObjParse rest
      | _ => jsonObjParse rest

/-- Shallow embedding of `JSONParser.parse`
(src/backend/dictionary_parser.py, lines 377-415): entries yielded plus an
optional raised error. -/
def json_parse : JValue → List Entry × Option String
  | .arr items => jsonArrParse items
  | .obj fields => (jsonObjParse fields, none)
  | _ => ([], none)

/-- Shallow embedding of `JSONParser.get_total_count` (lines 417-426). -/
def json_total_count : JValue → Nat
  | .arr items => items.length
  | .obj fields => fields.length
  | _ => 0

/-- Python `str.isdigit()` restricted to ASCII digits. -/
def pyIsDigitStr (s : String) : Bool :=
  !s.data.isEmpty && s.data.all Char.isDigit

/-- Python `int(s)` for a digits-only string. -/
def pyStrToNat (s : String) : Nat :=
  s.data.foldl (fun n c => 10 * n + (c.toNat - 48)) 0

/-- Shallow embedding of the per-row body of `ECDICTParser.parse`
(src/backend/dictionary_parser.py, lines 211-269).  A row is the
`csv.DictReader` record as a string association list (a short row, which
the csv module pads with `None` and on which the source would raise, is
outside this row model).  `none` means the row is skipped. -/
def ecdict_row (row : List (String × String)) : Option Entry :=
  let word := pyStrip (dictGetD row "word" "")
  let translation := pyStrip (dictGetD row "translation" "")
  if word = "" ∨ translation = "" then none
  else
    let extras : List (String × JValue) := []
    let phonetic := pyStrip (dictGetD row "phonetic" "")
    let extras := if phonetic ≠ "" then jAssign extras "phonetic_uk" (.str phonetic) else extras
    let definition := pyStrip (dictGetD row "definition" "")
    let extras := if definition ≠ "" then jAssign extras "definition" (.str definition) else extras
    let pos := pyStrip (dictGetD row "pos" "")
    let extras := if pos ≠ "" then jAssign extras "pos" (.str pos) else extras
    let collins := pyStrip (dictGetD row "collins" "")
    let extras := if collins ≠ "" ∧ pyIsDigitStr collins then
        jAssign extras "collins_star" (.num (pyStrToNat collins)) else extras
    let oxford := pyStrip (dictGetD row "oxford" "")
    let extras := if oxford = "1" then jAssign extras "oxford_level" (.str "core") else extras
    let extras := match parse_tags (dictGetD row "tag" "") with
      | some tags => jAssign extras "tags" (.arr (tags.map JValue.str))
      | none => extras
    let bnc := pyStrip (dictGetD row "bnc" "")
    let extras := if bnc ≠ "" ∧ pyIsDigitStr bnc then
        jAssign extras "bnc_rank" (.num (pyStrToNat bnc)) else extras
    let frq := pyStrip (dictGetD row "frq" "")
    let extras := if frq ≠ "" ∧ pyIsDigitStr frq then
        jAssign extras "frq_rank" (.num (pyStrToNat frq)) else extras
    let extras := match parse_exchange (dictGetD row "exchange" "") with
      | some ex => jAssign extras "exchange" (.obj (ex.map (fun kv => (kv.1, JValue.str kv.2))))
      | none => extras
    some ⟨word, .str translation, extras⟩

/-- Shallow embedding of `ECDICTParser.parse` over the reader's rows. -/
def ecdict_parse (rows : List (List (String × String))) : List Entry :=
  rows.filterMap ecdict_row

def WORD_COLUMNS : List String := ["word", "单词", "英文", "english"]

def TRANSLATION_COLUMNS : List String :=
  ["translation", "翻译", "中文", "释义", "chinese", "meaning"]

def PHONETIC_COLUMNS : List String := ["phonetic", "音标", "pronunciation"]

def DEFINITION_COLUMNS : List String :=
  ["definition", "英文释义", "english_definition"]

/-- Python `dict.get(k)` on a string-valued association list. -/
def dictGet (m : List (String × String)) (k : String) : Option String :=
  match m with
  | [] => none
  | (k0, v) :: rest => if k0 = k then some v else dictGet rest k

/-- Shallow embedding of `CSVParser._detect_columns`
(src/backend/dictionary_parser.py, lines 302-317). -/
def detect_columns (headers : List String) : List (String × String) :=
  headers.foldl (fun mapping header =>
    let hl := pyStrip (pyLower header)
    if WORD_COLUMNS.contains hl then dictAssign mapping "word" header
    else if TRANSLATION_COLUMNS.contains hl then dictAssign mapping "translation" header
    else if PHONETIC_COLUMNS.contains hl then dictAssign mapping "phonetic" header
    else if DEFINITION_COLUMNS.contains hl then dictAssign mapping "definition" header
    else mapping) []

/-- Shallow embedding of `CSVParser.parse`
(src/backend/dictionary_parser.py, lines 319-353): `fieldnames` is the
header row (empty list for a falsy `reader.fieldnames`), `rows` the data
records; a missing word or translation column fails the whole parse. -/
def csv_parse (fieldnames : List String) (rows : List (List (String × String))) :
    Except String (List Entry) :=
  let mapping := if fieldnames.isEmpty then [] else detect_columns fieldnames
  match dictGet mapping "word", dictGet mapping "translation" with
  | some wcol, some tcol =>
      .ok (rows.filterMap (fun row =>
        let word := pyStrip (dictGetD row wcol "")
        let translation := pyStrip (dictGetD row tcol "")
        if word = "" ∨ translation = "" then none
        else
          let extras : List (String × JValue) := []
          let extras := match dictGet mapping "phonetic" with
            | some pcol =>
                let phonetic := pyStrip (dictGetD row pcol "")
                if phonetic ≠ "" then jAssign extras "phonetic_uk" (.str phonetic) else extras
            | none => extras
          let extras := match dictGet mapping "definition" with
            | some dcol =>
                let definition := pyStrip (dictGetD row dcol "")
                if definition ≠ "" then jAssign extras "definition" (.str definition) else extras
            | none => extras
          some ⟨word, .str translation, extras⟩))
  | _, _ => Except.error "CSV文件必须包含单词和翻译列"

/-- Scan for the `>` closing an HTML tag; `some rem` is the text after it. -/
def tagSkip : List Char → Option (List Char)
  | [] => none
  | c :: rest => if c = '>' then some rest else tagSkip rest

/-- The regex `<[^>]+>` matched right after a `<`: at least one non-`>`
character, then `>`; `some rem` is the text after the match. -/
def tagClose : List Char → Option (List Char)
  | [] => none
  | c :: rest => if c = '>' then none else tagSkip rest

theorem tagSkip_length : ∀ {l rem : List Char}, tagSkip l = some rem →
    rem.length < l.length := by
  intro l
  induction l with
  | nil => intro rem h; cases h
  | cons c rest ih =>
      intro rem h
      by_cases hc : c = '>'
      · rw [tagSkip, if_pos hc] at h
        cases h
        simp
      · rw [tagSkip, if_neg hc] at h
        exact Nat.lt_succ_of_lt (ih h)

theorem tagClose_length {l rem : List Char} (h : tagClose l = some rem) :
    rem.length < l.length := by
  cases l with
  | nil => cases h
  | cons c rest =>
      by_cases hc : c = '>'
      · rw [tagClose, if_pos hc] at h; cases h
      · rw [tagClose, if_neg hc] at h
        exact Nat.lt_succ_of_lt (tagSkip_length h)

/-- `re.sub` with pattern `<[^>]+>` and replacement `' '`: repeatedly
replace the leftmost tag and continue after it. -/
def stripTags : List Char → List Char
  | [] => []
  | c :: rest =>
      if c = '<' then
        match hm : tagClose rest with
        | some rem => ' ' :: stripTags rem
        | none => c :: stripTags rest
      else c :: stripTags rest
termination_by l => l.length
decreasing_by
  · exact Nat.lt_succ_of_lt (tagClose_length hm)
  · exact Nat.lt_succ_self _
  · exact Nat.lt_succ_self _

/-- Python `str.replace(pat, rep)` for a non-empty pattern `p :: ps`:
non-overlapping left-to-right replacement, not rescanning replacements. -/
def replaceList (p : Char) (ps : List Char) (rep : List Char) : List Char → List Char
  | [] => []
  | c :: rest =>
      if listIsPre (p :: ps) (c :: rest) then
        rep ++ replaceList p ps rep (rest.drop ps.length)
      else c :: replaceList p ps rep rest
termination_by l => l.length
decreasing_by
  · simp only [List.length_cons, List.length_drop]; omega
  · simp

/-- Python `s.replace(pat, rep)` (the patterns used are never empty). -/
def pyReplace (s pat rep : String) : String :=
  match pat.data with
  | [] => s
  | p :: ps => String.mk (replaceList p ps rep.data s.data)

/-- `re.sub` with pattern `\s+` and replacement `' '`: collapse every run
of whitespace into a single space (`inRun` tracks an open run). -/
def collapseWsAux : Bool → List Char → List Char
  | _, [] => []
  | inRun, c :: rest =>
      if pyIsSpace c then
        if inRun then collapseWsAux true rest else ' ' :: collapseWsAux true rest
      else c :: collapseWsAux false rest

/-- Shallow embedding of `MDXParser._clean_html`
(src/backend/dictionary_parser.py, lines 452-472): drop tags, decode the
five HTML entities in source order, collapse whitespace, strip. -/
def clean_html (html_content : String) : String :=
  if html_content = "" then ""
  else
    let text := String.mk (stripTags html_content.data)
    let text := pyReplace text "&nbsp;" " "
    let text := pyReplace text "&lt;" "<"
    let text := pyReplace text "&gt;" ">"
    let text := pyReplace text "&amp;" "&"
    let text := pyReplace text "&quot;" (String.mk ['"'])
    let text := String.mk (collapseWsAux false text.data)
    pyStrip text

/-- Collect `[^cl]+` up to the closing delimiter from the current position;
`acc` is the group read so far, reversed. -/
def grabGroup (cl : Char) : List Char → List Char → Option (List Char)
  | [], _ => none
  | c :: rest, acc =>
      if c = cl then (if acc.isEmpty then none else some acc.reverse)
      else grabGroup cl rest (c :: acc)

/-- `re.search` for the pattern `op [^cl]+ cl`, returning the group of the
leftmost match. -/
def searchDelim (op cl : Char) : List Char → Option (List Char)
  | [] => none
  | c :: rest =>
      if c = op then
        match grabGroup cl rest [] with
        | some grp => some grp
        | none => searchDelim op cl rest
      else searchDelim op cl rest

/-- The fixed IPA character set of `MDXParser._extract_phonetic`. -/
def IPA_CHARS : List Char :=
  ['ə', 'ɪ', 'ʊ', 'æ', 'ɑ', 'ɔ', 'ʌ', 'ɛ', 'ɜ', 'ː', 'ˈ', 'ˌ']

def ipaLike (s : String) : Bool :=
  s.data.any (fun c => IPA_CHARS.contains c)

/-- One pattern attempt of `_extract_phonetic`: accept the leftmost match
group only when it looks like IPA after stripping. -/
def tryPattern (op cl : Char) (content : List Char) : Option String :=
  match searchDelim op cl content with
  | some grp =>
      let phonetic := pyStrip (String.mk grp)
      if ipaLike phonetic then some phonetic else none
  | none => none

/-- Shallow embedding of `MDXParser._extract_phonetic`
(src/backend/dictionary_parser.py, lines 474-491): try `[...]`, `/.../`,
then full-width brackets, falling to the next pattern when a match is not
IPA-like. -/
def extract_phonetic (content : String) : Option String :=
  match tryPattern '[' ']' content.data with
  | some ph => some ph
  | none =>
      match tryPattern '/' '/' content.data with
      | some ph => some ph
      | none => tryPattern '【' '】' content.data

/-- Python `s[:n]`. -/
def pyTake (n : Nat) (s : String) : String :=
  String.mk (s.data.take n)

/-- Shallow embedding of the per-item body of `MDXParser.parse`
(src/backend/dictionary_parser.py, lines 499-528), over already-decoded
strings (the per-entry `except` swallows decode errors, which cannot occur
for modelled strings).  `none` means the item is skipped. -/
def mdx_item (word_raw content : String) : Option Entry :=
  let word := pyStrip word_raw
  if word = "" then none
  else
    let translation := clean_html content
    if translation = "" then none
    else
      let extras := match extract_phonetic content with
        | some ph => [("phonetic_uk", JValue.str ph)]
        | none => []
      some ⟨word, .str (pyTake 2000 translation), extras⟩

/-- Shallow embedding of `MDXParser.parse` over the container's items. -/
def mdx_parse (items : List (String × String)) : List Entry :=
  items.filterMap (fun it => mdx_item it.1 it.2)

theorem stripData_eq_rdrop (l : List Char) :
    stripData l = List.rdropWhile pyIsSpace (l.dropWhile pyIsSpace) := rfl

/-- The first element surviving `dropWhile p` falsifies `p`. -/
theorem dropWhile_head_false {α : Type} (p : α → Bool) (l : List α) {a : α}
    {t : List α} (h : l.dropWhile p = a :: t) : p a = false := by
  by_contra hp
  have hp' : p a = true := by simpa using hp
  have hidem : (l.dropWhile p).dropWhile p = l.dropWhile p :=
    List.dropWhile_idempotent p l
  rw [h, List.dropWhile_cons, if_pos hp'] at hidem
  have hle := (List.dropWhile_sublist (l := t) p).length_le
  rw [hidem] at hle
  simp at hle

/-- A stripped list is empty or starts with a non-whitespace character. -/
theorem stripData_head (l : List Char) :
    stripData l = [] ∨ ∃ a t, stripData l = a :: t ∧ pyIsSpace a = false := by
  cases hx : stripData l with
  | nil => exact Or.inl rfl
  | cons a t =>
      refine Or.inr ⟨a, t, rfl, ?_⟩
      obtain ⟨r, hr⟩ := List.rdropWhile_prefix pyIsSpace (l.dropWhile pyIsSpace)
      rw [stripData_eq_rdrop] at hx
      rw [hx] at hr
      exact dropWhile_head_false pyIsSpace l hr.symm

/-- Python strip is idempotent. -/
theorem stripData_idem (l : List Char) : stripData (stripData l) = stripData l := by
  rcases stripData_head l with h | ⟨a, t, h, hp⟩
  · rw [h]; rfl
  · have h1 : (stripData l).dropWhile pyIsSpace = stripData l := by
      rw [h, List.dropWhile_cons, if_neg (by simp [hp])]
    rw [stripData_eq_rdrop (stripData l), h1, stripData_eq_rdrop l,
      List.rdropWhile_idempotent]

/-- A list containing a non-whitespace character strips to a non-empty
list. -/
theorem stripData_ne_nil {c : Char} {l : List Char} (hc : c ∈ l)
    (hp : pyIsSpace c = false) : stripData l ≠ [] := by
  intro h
  rw [stripData_eq_rdrop, List.rdropWhile_eq_nil_iff] at h
  cases hd : l.dropWhile pyIsSpace with
  | nil =>
      rw [List.dropWhile_eq_nil_iff] at hd
      exact absurd (hd c hc) (by simp [hp])
  | cons a t =>
      have hhead := dropWhile_head_false pyIsSpace l hd
      have hmem : a ∈ l.dropWhile pyIsSpace := by
        rw [hd]; exact List.mem_cons_self a t
      exact absurd (h a hmem) (by simp [hhead])

/-- `pyStrip` is idempotent, so a stripped non-empty value stays non-empty
after trimming again. -/
theorem pyStrip_pyStrip (s : String) : pyStrip (pyStrip s) = pyStrip s := by
  simp [pyStrip, stripData_idem]

theorem pyStrip_eq_empty_iff (s : String) : pyStrip s = "" ↔ stripData s.data = [] := by
  constructor
  · intro h
    have := congrArg String.data h
    simpa [pyStrip] using this
  · intro h
    simp [pyStrip, h]

/-- The skip-invalid invariant of the spec, per entry: the word and the
translation are non-empty after trimming (the translation being a string
in the first place). -/
def validEntry (e : Entry) : Prop :=
  pyStrip e.word ≠ "" ∧ ∃ s, e.translation = JValue.str s ∧ pyStrip s ≠ ""

/-- Truncating an already-stripped non-empty string to `n > 0` characters
keeps it non-empty after trimming: its first character is not
whitespace. -/
theorem pyStrip_take_ne (u : String) (n : Nat) (hn : 0 < n)
    (h : pyStrip u ≠ "") : pyStrip (pyTake n (pyStrip u)) ≠ "" := by
  rcases stripData_head u.data with h0 | ⟨a, t, h0, hp⟩
  · exact absurd ((pyStrip_eq_empty_iff u).mpr h0) h
  · have hdata : (pyTake n (pyStrip u)).data = (a :: t).take n := by
      simp [pyTake, pyStrip, h0]
    obtain ⟨m, rfl⟩ : ∃ m, n = m + 1 := ⟨n - 1, by omega⟩
    have hmem : a ∈ (pyTake (m + 1) (pyStrip u)).data := by
      rw [hdata, List.take_succ_cons]
      exact List.mem_cons_self _ _
    intro hcon
    rw [pyStrip_eq_empty_iff] at hcon
    exact stripData_ne_nil hmem hp hcon

/-- The preview loop, characterized for every starting loop index: it
returns the next `count - i` entries and pulls one extra item when the
sequence is long enough. -/
theorem getPreviewAux_spec {α : Type} (count : Nat) (xs : List α) :
    ∀ i, getPreviewAux count i xs =
      (xs.take (count - i), min xs.length (count - i + 1)) := by
  induction xs with
  | nil => intro i; simp [getPreviewAux]
  | cons x rest ih =>
      intro i
      by_cases h : count ≤ i
      · have hz : count - i = 0 := Nat.sub_eq_zero_of_le h
        simp [getPreviewAux, h, hz]
      · have hs : count - i = (count - (i + 1)) + 1 := by omega
        simp [getPreviewAux, h, ih (i + 1), hs, List.take_succ_cons,
          Nat.succ_min_succ]

/-- Claim C9 (corrected): `get_preview n` returns the first `n` entries of
the parse sequence (all of them when it is shorter), but consumes
`min (length) (n + 1)` items of the underlying generator — one more than
`n` whenever the sequence holds more than `n` entries. -/
theorem C9_preview_entries_and_consumption {α : Type} (n : Nat) (xs : List α) :
    (get_preview n xs).1 = xs.take n ∧
    (get_preview n xs).2 = min xs.length (n + 1) := by
  have h := getPreviewAux_spec n xs 0
  rw [get_preview, h]
  simp

/-- Claim C9, counterexample to the claim as stated: with `n = 1` over a
two-entry sequence the preview is correct but the loop pulls 2 items from
the generator, more than the claimed bound of `n = 1`. -/
theorem C9_preview_consumes_more_than_n :
    (get_preview 1 ([0, 1] : List Nat)).1 = [0] ∧
    (get_preview 1 ([0, 1] : List Nat)).2 = 2 ∧
    ¬((get_preview 1 ([0, 1] : List Nat)).2 ≤ 1) := by decide

/-- Claim C7: the morphology decoder maps each `code:form` segment through
the fixed table — p to past, d to done, i to ing, 3 to third person, r to
comparative (key `er`), t to superlative (key `est`), s to plural, 0 and 1
to lemma — with unrecognized codes passing through literally, and the
concrete field `p:went/d:gone/i:going/3:goes` decodes to exactly the
claimed mapping. -/
theorem C7_exchange_decode :
    parse_exchange "p:went/d:gone/i:going/3:goes" =
      some [("past", "went"), ("done", "gone"), ("ing", "going"), ("third", "goes")] ∧
    parse_exchange "x:foo" = some [("x", "foo")] ∧
    EXCHANGE_TYPES.map (fun kv => dictGetD EXCHANGE_TYPES kv.1 kv.1) =
      ["past", "done", "ing", "third", "er", "est", "plural", "lemma", "lemma"] ∧
    ∀ c, c ∉ EXCHANGE_TYPES.map Prod.fst → dictGetD EXCHANGE_TYPES c c = c := by
  refine ⟨by decide, by decide, by decide, ?_⟩
  intro c hc
  simp only [EXCHANGE_TYPES, List.map_cons, List.map_nil, List.mem_cons,
    List.not_mem_nil, or_false, not_or] at hc
  obtain ⟨h1, h2, h3, h4, h5, h6, h7, h8, h9⟩ := hc
  simp [dictGetD, EXCHANGE_TYPES, Ne.symm h1, Ne.symm h2, Ne.symm h3, Ne.symm h4,
    Ne.symm h5, Ne.symm h6, Ne.symm h7, Ne.symm h8, Ne.symm h9]

/-- Claim C7, witness: the unrecognized-code clause applied at the concrete
code `q`. -/
theorem C7_exchange_decode_witness : dictGetD EXCHANGE_TYPES "q" "q" = "q" :=
  C7_exchange_decode.2.2.2 "q" (by decide)

/-- Claim C8: format detection maps extension `.mdx` to the compressed
container tag and `.json` to the JSON tag regardless of content; for `.csv`
it classifies from the first line alone as `ecdict` exactly when the line
contains the `word` and `translation` markers and additionally a `phonetic`
or `exchange` marker, otherwise as generic `csv`; any other extension gives
`unknown`.  The function is total, so detection never raises. -/
theorem C8_detect_format_cases :
    (∀ l, detect_format ".mdx" l = "mdx") ∧
    (∀ l, detect_format ".json" l = "json") ∧
    (∀ line, detect_format ".csv" (some line) =
        if pyInStr "word" line && pyInStr "translation" line &&
            (pyInStr "phonetic" line || pyInStr "exchange" line)
        then "ecdict" else "csv") ∧
    ∀ ext l, pyLower ext ≠ ".mdx" → pyLower ext ≠ ".json" → pyLower ext ≠ ".csv" →
      detect_format ext l = "unknown" := by
  refine ⟨fun l => rfl, fun l => rfl, ?_, ?_⟩
  · intro line
    show (if pyInStr "word" line && pyInStr "translation" line then
        if pyInStr "phonetic" line || pyInStr "exchange" line then "ecdict"
        else "csv"
      else "csv") = _
    cases h1 : pyInStr "word" line <;>
      cases h2 : pyInStr "translation" line <;>
        cases h3 : pyInStr "phonetic" line <;>
          cases h4 : pyInStr "exchange" line <;> simp
  · intro ext l hm hj hc
    simp [detect_format, hm, hj, hc]

/-- Claim C8, witness: the cases of `C8_detect_format_cases` instantiated at
concrete extensions and a concrete ECDICT-style header line. -/
theorem C8_detect_format_cases_witness :
    detect_format ".mdx" none = "mdx" ∧
    detect_format ".json" (some "x") = "json" ∧
    detect_format ".csv" (some "word,phonetic,definition,translation") =
      "ecdict" ∧
    detect_format ".txt" none = "unknown" := by
  refine ⟨C8_detect_format_cases.1 none, C8_detect_format_cases.2.1 (some "x"),
    ?_, ?_⟩
  · rw [C8_detect_format_cases.2.2.1]
    decide
  · exact C8_detect_format_cases.2.2.2 ".txt" none (by decide) (by decide)
      (by decide)

/-- Claim C10: for a `.csv` path whose first line cannot be read at all, the
exception handler makes detection fall through to the generic tabular tag
`csv`, not `unknown`, and no error escapes. -/
theorem C10_csv_unreadable_line :
    detect_format ".csv" none = "csv" ∧ detect_format ".csv" none ≠ "unknown" := by
  decide

/-- Claim C2 (corrected): the skip-invalid invariant — every yielded entry
has a word and a translation non-empty after trimming — holds for the
ECDICT parser, the generic CSV parser, the MDX parser and the JSON array
form, but not for the JSON flat-object form (see the counterexample),
which yields string values and object values without any emptiness or
trimming check. -/
theorem C2_skip_invalid_per_variant :
    (∀ rows, ∀ e ∈ ecdict_parse rows, validEntry e) ∧
    (∀ fieldnames rows entries, csv_parse fieldnames rows = Except.ok entries →
      ∀ e ∈ entries, validEntry e) ∧
    (∀ items, ∀ e ∈ mdx_parse items, validEntry e) ∧
    (∀ items, ∀ e ∈ (jsonArrParse items).1, validEntry e) := by
  refine ⟨?_, ?_, ?_, ?_⟩
  · intro rows e he
    rw [ecdict_parse, List.mem_filterMap] at he
    obtain ⟨row, -, hrow⟩ := he
    simp only [ecdict_row] at hrow
    by_cases hcond : pyStrip (dictGetD row "word" "") = "" ∨
        pyStrip (dictGetD row "translation" "") = ""
    · rw [if_pos hcond] at hrow
      cases hrow
    · rw [if_neg hcond] at hrow
      push_neg at hcond
      injection hrow with h
      subst h
      exact ⟨by rw [pyStrip_pyStrip]; exact hcond.1,
        _, rfl, by rw [pyStrip_pyStrip]; exact hcond.2⟩
  · intro fieldnames rows entries hok e he
    simp only [csv_parse] at hok
    generalize hM : (if fieldnames.isEmpty then [] else detect_columns fieldnames) = M at hok
    cases hw : dictGet M "word" with
    | none => rw [hw] at hok; cases ht : dictGet M "translation" <;> rw [ht] at hok <;> cases hok
    | some wcol =>
        rw [hw] at hok
        cases ht : dictGet M "translation" with
        | none => rw [ht] at hok; cases hok
        | some tcol =>
            rw [ht] at hok
            injection hok with hok
            subst hok
            rw [List.mem_filterMap] at he
            obtain ⟨row, -, hrow⟩ := he
            by_cases hcond : pyStrip (dictGetD row wcol "") = "" ∨
                pyStrip (dictGetD row tcol "") = ""
            · rw [if_pos hcond] at hrow
              cases hrow
            · rw [if_neg hcond] at hrow
              push_neg at hcond
              injection hrow with h
              subst h
              exact ⟨by rw [pyStrip_pyStrip]; exact hcond.1,
                _, rfl, by rw [pyStrip_pyStrip]; exact hcond.2⟩
  · intro items e he
    rw [mdx_parse, List.mem_filterMap] at he
    obtain ⟨it, -, hit⟩ := he
    simp only [mdx_item] at hit
    by_cases hw : pyStrip it.1 = ""
    · rw [if_pos hw] at hit
      cases hit
    · rw [if_neg hw] at hit
      by_cases ht : clean_html it.2 = ""
      · rw [if_pos ht] at hit
        cases hit
      · rw [if_neg ht] at hit
        injection hit with h
        subst h
        refine ⟨by rw [pyStrip_pyStrip]; exact hw, _, rfl, ?_⟩
        by_cases hc : it.2 = ""
        · exact absurd (by rw [hc]; rfl) ht
        · have hch : clean_html it.2 = pyStrip (String.mk (collapseWsAux false
              (pyReplace (pyReplace (pyReplace (pyReplace (pyReplace
                (String.mk (stripTags it.2.data))
                "&nbsp;" " ") "&lt;" "<") "&gt;" ">") "&amp;" "&")
                "&quot;" (String.mk ['"'])).data)) := by
            rw [clean_html, if_neg hc]
          rw [hch] at ht ⊢
          exact pyStrip_take_ne _ 2000 (by omega) ht
  · intro items
    induction items with
    | nil => intro e he; simp [jsonArrParse] at he
    | cons item rest ih =>
        intro e he
        cases item with
        | obj fields =>
            rw [jsonArrParse] at he
            cases hitem : jsonArrayItem fields with
            | error msg =>
                rw [hitem] at he
                simp at he
            | ok oe =>
                rw [hitem] at he
                cases oe with
                | none => exact ih e he
                | some entry =>
                    simp only [List.mem_cons] at he
                    rcases he with rfl | he
                    · simp only [jsonArrayItem] at hitem
                      cases hgw : jGetD fields "word" (JValue.str "") <;>
                        rw [hgw] at hitem <;> try cases hitem
                      rename_i w
                      cases hgt : jGetD fields "translation"
                          (jGetD fields "trans" (JValue.str "")) <;>
                        rw [hgt] at hitem <;> try cases hitem
                      rename_i t
                      dsimp only at hitem
                      by_cases hcond : pyStrip w ≠ "" ∧ pyStrip t ≠ ""
                      · rw [if_pos hcond] at hitem
                        injection hitem with h1
                        injection h1 with h2
                        subst h2
                        exact ⟨by rw [pyStrip_pyStrip]; exact hcond.1,
                          _, rfl, by rw [pyStrip_pyStrip]; exact hcond.2⟩
                      · rw [if_neg hcond] at hitem
                        cases hitem
                    · exact ih e he
        | str s => exact ih e he
        | num n => exact ih e he
        | bool b => exact ih e he
        | null => exact ih e he
        | arr l => exact ih e he

/-- Claim C2, witness: the JSON array clause applied to one concrete
well-formed item. -/
theorem C2_skip_invalid_per_variant_witness :
    validEntry ⟨"hello", JValue.str "你好", []⟩ :=
  C2_skip_invalid_per_variant.2.2.2
    [JValue.obj [("word", JValue.str "hello"), ("translation", JValue.str "你好")]]
    ⟨"hello", JValue.str "你好", []⟩ (List.mem_singleton_self _)

/-- Claim C2, counterexample to the claim as stated: the JSON flat-object
form yields the pair `hello : ""` as an entry whose translation is empty
after trimming, so an invalid record does appear in the yielded
sequence. -/
theorem C2_json_flat_yields_empty_translation :
    json_parse (JValue.obj [("hello", JValue.str "")]) =
      ([⟨"hello", JValue.str "", []⟩], none) ∧
    ¬ validEntry ⟨"hello", JValue.str "", []⟩ := by
  refine ⟨rfl, ?_⟩
  rintro ⟨-, s, hs, hne⟩
  cases hs
  exact hne rfl

/-! ### The import orchestrator

Shallow embedding of `DictionaryImporter.runImport`
(src/backend/dictionary_importer.py, lines 73-215).  The database gateway
and the progress callback are recorded as a trace of events; the parser is
abstracted to the entry list its generator yields, a final optional raised
error, and the up-front total-count estimate; batch-insert outcomes are
supplied per call.  Timestamps and log lines are not modelled.  Python
float progress arithmetic is modelled exactly over `ℚ`. -/

/-- One outward call of the orchestrator: the storage-gateway operations
(`create_dictionary`, `add_dictionary_entries_batch`,
`update_import_progress`) and the caller-supplied progress callback.  A
failed batch insert carries its error. -/
inductive Event (α : Type) where
  | createDictionary (sourceFormat : String)
  | insertBatch (entries : List α) (err : Option String)
  | updateProgress (progress : ℚ) (status : String)
      (entryCount : Option Nat) (error : Option String)
  | progressCallback (progress : ℚ) (entryCount : Nat)
deriving DecidableEq

/-- The in-memory `_import_tasks` record for one dictionary (timestamps
omitted). -/
structure ImportTask where
  status : String
  progress : ℚ
  entryCount : Nat
  error : Option String
deriving DecidableEq

/-- The environment one import runs against: what the file, the store and
the parser would answer. -/
structure ImportEnv (α : Type) where
  /-- Requested dictionary name. -/
  name : String
  /-- `DictionaryParser.detect_format` on the file. -/
  format : String
  /-- Whether `get_dictionary_by_name` finds an existing record. -/
  nameExists : Bool
  /-- `parser.get_total_count()`, estimated once up front. -/
  totalCount : Nat
  /-- The entries `parser.parse()` yields, in order. -/
  entries : List α
  /-- An error the generator raises after its last yielded entry, if any. -/
  parseError : Option String
  /-- The error raised by the k-th `add_dictionary_entries_batch` call, if
  any (counting from 0). -/
  insertFail : Nat → Option String

/-- The loop state of the batch loop.  The current batch is kept reversed
with its length cached; both are observably the Python `batch` list. -/
structure LoopState (α : Type) where
  batchRev : List α
  batchLen : Nat
  nImported : Nat
  lastUpd : Nat
  inserts : Nat
  events : List (Event α)
  task : ImportTask

/-- The progress fraction of line 148:
`min(imported_count / total_count, 0.99) if total_count > 0 else 0.5`. -/
def progressOf (nImported total : Nat) : ℚ :=
  if 0 < total then min ((nImported : ℚ) / (total : ℚ)) (99 / 100) else 1 / 2

/-- One iteration of the batch loop (lines 137-153): append the entry;
on reaching 1000, insert the batch and, when 5000 more entries have been
persisted since the last update, write progress to the store and the task
and invoke the callback. -/
def loopStep {α : Type} (env : ImportEnv α) (cb : Bool) (total : Nat)
    (s : LoopState α) (e : α) :
    Except (List (Event α) × ImportTask × String) (LoopState α) :=
  let batchRev := e :: s.batchRev
  let batchLen := s.batchLen + 1
  if 1000 ≤ batchLen then
    match env.insertFail s.inserts with
    | some msg =>
        .error (s.events ++ [.insertBatch batchRev.reverse (some msg)], s.task, msg)
    | none =>
        let nImported := s.nImported + batchLen
        let events := s.events ++ [.insertBatch batchRev.reverse none]
        let inserts := s.inserts + 1
        if 5000 ≤ nImported - s.lastUpd then
          let progress := progressOf nImported total
          let events := events ++
            [.updateProgress progress "importing" (some nImported) none] ++
            (if cb then [.progressCallback progress nImported] else [])
          .ok { batchRev := [], batchLen := 0, nImported := nImported,
                lastUpd := nImported, inserts := inserts, events := events,
                task := { s.task with
                          progress := progress,
                          entryCount := nImported } }
        else
          .ok { batchRev := [], batchLen := 0, nImported := nImported,
                lastUpd := s.lastUpd, inserts := inserts, events := events,
                task := s.task }
  else
    .ok { s with batchRev := batchRev, batchLen := batchLen }

/-- The batch loop over the yielded entries; an insert error aborts it. -/
def runLoop {α : Type} (env : ImportEnv α) (cb : Bool) (total : Nat) :
    List α → LoopState α →
    Except (List (Event α) × ImportTask × String) (LoopState α)
  | [], s => .ok s
  | e :: rest, s =>
      match loopStep env cb total s e with
      | .ok s2 => runLoop env cb total rest s2
      | .error f => .error f

/-- The four formats `create_parser` dispatches on; anything else raises
the unsupported-format `ValueError` (lines 101-112 of the parser). -/
def SUPPORTED_FORMATS : List String := ["ecdict", "csv", "json", "mdx"]

/-- The guarded region of `runImport` (lines 124-181 up to the
completion bookkeeping): create the parser, estimate the total, run the
batch loop, raise any generator error, flush the remaining partial batch.
`.ok` carries events, task and the final nImported count; `.error` carries
events, task and the raised message. -/
def tryRegion {α : Type} (env : ImportEnv α) (cb : Bool) :
    Except (List (Event α) × ImportTask × String)
      (List (Event α) × ImportTask × Nat) :=
  let ev0 : List (Event α) := [.createDictionary env.format]
  let task0 : ImportTask := ⟨"importing", 0, 0, none⟩
  if SUPPORTED_FORMATS.contains env.format then
    match runLoop env cb env.totalCount env.entries ⟨[], 0, 0, 0, 0, ev0, task0⟩ with
    | .error f => .error f
    | .ok s =>
        match env.parseError with
        | some msg => .error (s.events, s.task, msg)
        | none =>
            if s.batchLen ≠ 0 then
              match env.insertFail s.inserts with
              | some msg => .error
                  (s.events ++ [.insertBatch s.batchRev.reverse (some msg)],
                   s.task, msg)
              | none => .ok
                  (s.events ++ [.insertBatch s.batchRev.reverse none], s.task,
                   s.nImported + s.batchLen)
            else .ok (s.events, s.task, s.nImported)
  else .error (ev0, task0, "不支持的词典格式: " ++ env.format)

/-- The result of one `runImport` call: the ordered trace of
outward calls, the final `_import_tasks` record (none when never created),
and the returned value or re-raised error message. -/
structure ImportResult (α : Type) where
  events : List (Event α)
  task : Option ImportTask
  outcome : Except String Unit

/-- An ASCII apostrophe, kept out of string literals. -/
def squote : String := (Char.ofNat 39).toString

/-- Shallow embedding of `DictionaryImporter.runImport`: uniqueness
check, record and task creation, the guarded region, then completion or
failure bookkeeping; any caught error is recorded and re-raised. -/
def runImport {α : Type} (env : ImportEnv α) (cb : Bool) :
    ImportResult α :=
  if env.nameExists then
    { events := [], task := none,
      outcome := .error ("词典 " ++ squote ++ env.name ++ squote ++ " 已存在") }
  else
    match tryRegion env cb with
    | .ok (events, task, nImported) =>
        let events := events ++
          [.updateProgress 1 "completed" (some nImported) none] ++
          (if cb then [.progressCallback 1 nImported] else [])
        let task := { task with
                      status := "completed",
                      progress := 1,
                      entryCount := nImported }
        { events := events, task := some task, outcome := .ok () }
    | .error (events, task, msg) =>
        { events := events ++ [.updateProgress 0 "failed" none (some msg)],
          task := some { task with status := "failed", error := some msg },
          outcome := .error msg }

/-- The entries actually persisted in a trace: the concatenation of the
successfully inserted batches, in order. -/
def insertedEntries {α : Type} : List (Event α) → List α
  | [] => []
  | ev :: rest =>
      match ev with
      | .insertBatch es none => es ++ insertedEntries rest
      | _ => insertedEntries rest

/-- The number of batch-insert calls dispatched in a trace (successful or
not). -/
def countInserts {α : Type} : List (Event α) → Nat
  | [] => 0
  | ev :: rest =>
      match ev with
      | .insertBatch _ _ => countInserts rest + 1
      | _ => countInserts rest

/-- The progress values written in a trace, in order, across both the
store updates and the callback invocations. -/
def progressValues {α : Type} : List (Event α) → List ℚ
  | [] => []
  | ev :: rest =>
      match ev with
      | .updateProgress p _ _ _ => p :: progressValues rest
      | .progressCallback p _ => p :: progressValues rest
      | _ => progressValues rest

/-- Every entry count carried by a progress update equals the number of
entries persisted before that update was issued. -/
def countsAccurate {α : Type} (events : List (Event α)) : Prop :=
  ∀ i p st k er, events.get? i = some (Event.updateProgress p st (some k) er) →
    k = (insertedEntries (events.take i)).length

theorem insertedEntries_append {α : Type} (l₁ l₂ : List (Event α)) :
    insertedEntries (l₁ ++ l₂) = insertedEntries l₁ ++ insertedEntries l₂ := by
  induction l₁ with
  | nil => simp [insertedEntries]
  | cons ev rest ih =>
      cases ev with
      | insertBatch es err => cases err <;> simp [insertedEntries, ih]
      | createDictionary f => simp [insertedEntries, ih]
      | updateProgress p st k er => simp [insertedEntries, ih]
      | progressCallback p k => simp [insertedEntries, ih]

theorem countInserts_append {α : Type} (l₁ l₂ : List (Event α)) :
    countInserts (l₁ ++ l₂) = countInserts l₁ + countInserts l₂ := by
  induction l₁ with
  | nil => simp [countInserts]
  | cons ev rest ih =>
      cases ev with
      | insertBatch es err => simp [countInserts, ih]; omega
      | createDictionary f => simp [countInserts, ih]
      | updateProgress p st k er => simp [countInserts, ih]
      | progressCallback p k => simp [countInserts, ih]

theorem progressValues_append {α : Type} (l₁ l₂ : List (Event α)) :
    progressValues (l₁ ++ l₂) = progressValues l₁ ++ progressValues l₂ := by
  induction l₁ with
  | nil => simp [progressValues]
  | cons ev rest ih =>
      cases ev with
      | insertBatch es err => simp [progressValues, ih]
      | createDictionary f => simp [progressValues, ih]
      | updateProgress p st k er => simp [progressValues, ih]
      | progressCallback p k => simp [progressValues, ih]

theorem progressOf_mono {k k2 total : Nat} (h : k ≤ k2) :
    progressOf k total ≤ progressOf k2 total := by
  unfold progressOf
  split
  · rename_i ht
    refine min_le_min ?_ le_rfl
    have hpos : (0 : ℚ) < (total : ℚ) := by exact_mod_cast ht
    exact (div_le_div_right hpos).mpr (by exact_mod_cast h)
  · exact le_rfl

theorem progressOf_le_one (k total : Nat) : progressOf k total ≤ 1 := by
  unfold progressOf
  split
  · exact le_trans (min_le_right _ _) (by norm_num)
  · norm_num

theorem progressOf_lt_one {k total : Nat} (ht : 0 < total) :
    progressOf k total < 1 := by
  unfold progressOf
  rw [if_pos ht]
  exact lt_of_le_of_lt (min_le_right _ _) (by norm_num)

theorem countsAccurate_append {α : Type} {evs : List (Event α)} {e : Event α}
    (h : countsAccurate evs)
    (he : ∀ p st k er, e = Event.updateProgress p st (some k) er →
      k = (insertedEntries evs).length) :
    countsAccurate (evs ++ [e]) := by
  intro i p st k er hi
  by_cases hlt : i < evs.length
  · rw [List.get?_append hlt] at hi
    rw [List.take_append_of_le_length (le_of_lt hlt)]
    exact h i p st k er hi
  · have hge : evs.length ≤ i := Nat.le_of_not_lt hlt
    rw [List.get?_append_right hge] at hi
    cases hd : i - evs.length with
    | zero =>
        rw [hd] at hi
        simp only [List.get?] at hi
        injection hi with hi
        have hieq : i = evs.length := by omega
        rw [hieq, List.take_left]
        exact he p st k er hi
    | succ m =>
        rw [hd] at hi
        simp at hi

theorem insertedEntries_cb {α : Type} (cb : Bool) (v : ℚ) (k : Nat) :
    insertedEntries (α := α)
      (if cb then [Event.progressCallback v k] else []) = [] := by
  cases cb <;> simp [insertedEntries]

theorem countInserts_cb {α : Type} (cb : Bool) (v : ℚ) (k : Nat) :
    countInserts (α := α)
      (if cb then [Event.progressCallback v k] else []) = 0 := by
  cases cb <;> simp [countInserts]

theorem progressValues_cb {α : Type} (cb : Bool) (v : ℚ) (k : Nat) :
    progressValues (α := α)
      (if cb then [Event.progressCallback v k] else []) =
      if cb then [v] else [] := by
  cases cb <;> simp [progressValues]

theorem countsAccurate_append_cb {α : Type} {evs : List (Event α)}
    (cb : Bool) (v : ℚ) (k : Nat) (h : countsAccurate evs) :
    countsAccurate
      (evs ++ (if cb then [Event.progressCallback v k] else [])) := by
  cases cb
  · simpa using h
  · exact countsAccurate_append h (by intro p st k2 er hctr; cases hctr)


/-- The progress value an event writes, when it writes one: store updates
and callback invocations. -/
def progressEventValue {α : Type} : Event α → Option ℚ
  | .updateProgress p _ _ _ => some p
  | .progressCallback p _ => some p
  | _ => none

/-- Every progress value in the trace equals the capped fraction of the
entries persisted before that write over the estimate. -/
def progressAccurate {α : Type} (total : Nat) (events : List (Event α)) : Prop :=
  ∀ i p, (events.get? i).bind progressEventValue = some p →
    p = progressOf (insertedEntries (events.take i)).length total

theorem progressAccurate_append {α : Type} {total : Nat}
    {evs : List (Event α)} {e : Event α} (h : progressAccurate total evs)
    (he : ∀ p, progressEventValue e = some p →
      p = progressOf (insertedEntries evs).length total) :
    progressAccurate total (evs ++ [e]) := by
  intro i p hi
  by_cases hlt : i < evs.length
  · rw [List.get?_append hlt] at hi
    rw [List.take_append_of_le_length (le_of_lt hlt)]
    exact h i p hi
  · have hge : evs.length ≤ i := Nat.le_of_not_lt hlt
    rw [List.get?_append_right hge] at hi
    cases hd : i - evs.length with
    | zero =>
        rw [hd] at hi
        simp only [List.get?, Option.some_bind] at hi
        have hieq : i = evs.length := by omega
        rw [hieq, List.take_left]
        exact he p hi
    | succ m =>
        rw [hd] at hi
        simp at hi

theorem progressAccurate_append_cb {α : Type} {total : Nat}
    {evs : List (Event α)} (cb : Bool) (v : ℚ) (k : Nat)
    (h : progressAccurate total evs)
    (hv : v = progressOf (insertedEntries evs).length total) :
    progressAccurate total
      (evs ++ (if cb then [Event.progressCallback v k] else [])) := by
  cases cb
  · simpa using h
  · refine progressAccurate_append h ?_
    intro p hp
    simp only [progressEventValue, Option.some.injEq] at hp
    rw [← hp, hv]

/-- A progress value read positionally from the trace is one of its
progress values. -/
theorem mem_progressValues_of_get {α : Type} {events : List (Event α)}
    {i : Nat} {p : ℚ}
    (h : (events.get? i).bind progressEventValue = some p) :
    p ∈ progressValues events := by
  induction events generalizing i with
  | nil => simp at h
  | cons ev rest ih =>
      cases i with
      | zero =>
          simp only [List.get?, Option.some_bind] at h
          cases ev with
          | updateProgress q st k er =>
              simp only [progressEventValue, Option.some.injEq] at h
              simp [progressValues, h]
          | progressCallback q k =>
              simp only [progressEventValue, Option.some.injEq] at h
              simp [progressValues, h]
          | createDictionary f => simp [progressEventValue] at h
          | insertBatch es err => simp [progressEventValue] at h
      | succ n =>
          simp only [List.get?] at h
          have hmem := ih h
          cases ev with
          | updateProgress q st k er =>
              simp only [progressValues]
              exact List.mem_cons_of_mem _ hmem
          | progressCallback q k =>
              simp only [progressValues]
              exact List.mem_cons_of_mem _ hmem
          | createDictionary f => simpa [progressValues] using hmem
          | insertBatch es err => simpa [progressValues] using hmem

/-- The invariant the batch loop maintains over the successfully processed
prefix of the entry stream. -/
structure LoopInv {α : Type} (total : Nat) (processed : List α)
    (s : LoopState α) : Prop where
  batch_len : s.batchRev.length = s.batchLen
  batch_le : s.batchLen ≤ 999
  conserve : insertedEntries s.events ++ s.batchRev.reverse = processed
  inserted_len_eq : s.nImported = (insertedEntries s.events).length
  inserts_eq : s.inserts = countInserts s.events
  thousand_mul : s.nImported = 1000 * s.inserts
  lastUpd_le : s.lastUpd ≤ s.nImported
  task_status : s.task.status = "importing"
  task_error : s.task.error = none
  task_count : s.task.entryCount = s.lastUpd
  task_prog : s.task.progress =
    (if s.lastUpd = 0 then 0 else progressOf s.lastUpd total)
  chain : List.Chain' (· ≤ ·) (progressValues s.events)
  vals : ∀ p ∈ progressValues s.events,
    ∃ k, 5000 ≤ k ∧ k ≤ s.nImported ∧ p = progressOf k total
  last_val : (s.lastUpd = 0 ∧ progressValues s.events = []) ∨
    (0 < s.lastUpd ∧
      (progressValues s.events).getLast? = some (progressOf s.lastUpd total))
  counts : countsAccurate s.events
  gap_lt : s.nImported - s.lastUpd < 5000
  lastUpd_mult : ∃ m, s.lastUpd = 5000 * m
  prog_acc : progressAccurate total s.events


/-- One loop iteration preserves the invariant when its insert (if any)
succeeds. -/
theorem loopStep_inv {α : Type} {env : ImportEnv α} {cb : Bool}
    {total : Nat} {processed : List α} {s : LoopState α} (e : α)
    (hnf : env.insertFail s.inserts = none)
    (h : LoopInv total processed s) :
    ∃ s2, loopStep env cb total s e = Except.ok s2 ∧
      LoopInv total (processed ++ [e]) s2 := by
  by_cases hb : 1000 ≤ s.batchLen + 1
  · have hbl : s.batchLen = 999 := by have := h.batch_le; omega
    rw [loopStep]
    simp only [hnf, if_pos hb]
    have hins : insertedEntries (α := α)
        (s.events ++ [Event.insertBatch (e :: s.batchRev).reverse none]) =
        insertedEntries s.events ++ (e :: s.batchRev).reverse := by
      rw [insertedEntries_append]; simp [insertedEntries]
    by_cases hu : 5000 ≤ s.nImported + (s.batchLen + 1) - s.lastUpd
    · rw [if_pos hu]
      refine ⟨_, rfl, ?_⟩
      set v := progressOf (s.nImported + (s.batchLen + 1)) total with hv
      have himp5000 : 5000 ≤ s.nImported + (s.batchLen + 1) := by omega
      have hpv : progressValues (α := α)
          (s.events ++ [Event.insertBatch (e :: s.batchRev).reverse none] ++
            [Event.updateProgress v "importing"
              (some (s.nImported + (s.batchLen + 1))) none] ++
            (if cb then [Event.progressCallback v
              (s.nImported + (s.batchLen + 1))] else [])) =
          progressValues s.events ++ ([v] ++ (if cb then [v] else [])) := by
        rw [progressValues_append, progressValues_append, progressValues_append,
          progressValues_cb]
        simp [progressValues]
      have hlast_le : ∀ x ∈ (progressValues (α := α) s.events).getLast?,
          x ≤ v := by
        intro x hx
        rcases h.last_val with ⟨-, hnil⟩ | ⟨-, hlast⟩
        · rw [hnil] at hx; simp at hx
        · rw [hlast] at hx
          simp only [Option.mem_def, Option.some.injEq] at hx
          subst hx
          exact progressOf_mono (by omega)
      constructor
      · simp
      · simp
      · -- conserve
        simp only [List.reverse_nil, List.append_nil]
        rw [insertedEntries_append, insertedEntries_cb, insertedEntries_append,
          hins]
        simp only [insertedEntries, List.append_nil]
        rw [← h.conserve]
        simp
      · -- inserted_len_eq
        simp only []
        rw [insertedEntries_append, insertedEntries_cb, insertedEntries_append,
          hins]
        simp only [insertedEntries, List.append_nil, List.length_append,
          List.length_reverse, List.length_cons]
        rw [← h.inserted_len_eq, h.batch_len]
      · -- inserts_eq
        simp only []
        rw [countInserts_append, countInserts_cb, countInserts_append,
          countInserts_append]
        simp only [countInserts, h.inserts_eq]
      · -- thousand_mul
        simp only []
        rw [h.thousand_mul, hbl]
        omega
      · -- lastUpd_le
        exact le_rfl
      · -- task_status
        simp [h.task_status]
      · -- task_error
        simp [h.task_error]
      · -- task_count
        simp
      · -- task_prog
        simp only []
        rw [if_neg (by omega)]
      · -- chain
        simp only []
        rw [hpv, List.chain'_append]
        refine ⟨h.chain, ?_, ?_⟩
        · cases cb <;> simp [List.chain'_cons]
        · intro x hx y hy
          simp only [List.singleton_append, List.head?_cons, Option.mem_def,
            Option.some.injEq] at hy
          subst hy
          exact hlast_le x hx
      · -- vals
        simp only []
        rw [hpv]
        intro p hp
        rw [List.mem_append] at hp
        rcases hp with hp | hp
        · obtain ⟨k, hk1, hk2, hk3⟩ := h.vals p hp
          exact ⟨k, hk1, by omega, hk3⟩
        · have hpeq : p = v := by
            cases cb <;> simpa using hp
          exact ⟨s.nImported + (s.batchLen + 1), himp5000, le_rfl, by
            rw [hpeq, hv]⟩
      · -- last_val
        simp only []
        refine Or.inr ⟨by omega, ?_⟩
        rw [hpv]
        cases cb
        · rw [show ([v] ++ if (false : Bool) = true then [v] else []) = [v]
            from rfl]
          exact List.getLast?_concat _
        · rw [show ([v] ++ if (true : Bool) = true then [v] else []) = [v] ++ [v]
            from rfl, ← List.append_assoc]
          exact List.getLast?_concat _
      · -- counts
        simp only []
        refine countsAccurate_append_cb cb v _ ?_
        refine countsAccurate_append (countsAccurate_append h.counts ?_) ?_
        · intro p st k er hctr; cases hctr
        · intro p st k er hctr
          injection hctr with h1 h2 h3 h4
          injection h3 with h3
          subst h3
          rw [hins]
          simp only [List.length_append, List.length_reverse, List.length_cons]
          rw [← h.inserted_len_eq, h.batch_len]
      · -- gap_lt
        simp only []
        omega
      · -- lastUpd_mult
        simp only []
        obtain ⟨m, hm⟩ := h.lastUpd_mult
        obtain ⟨i0, hi0⟩ : ∃ i0, s.nImported = 1000 * i0 :=
          ⟨_, h.thousand_mul⟩
        have hgap := h.gap_lt
        exact ⟨m + 1, by omega⟩
      · -- prog_acc
        simp only []
        have hlen1 : (insertedEntries (α := α)
            (s.events ++ [Event.insertBatch (e :: s.batchRev).reverse none])).length =
            s.nImported + (s.batchLen + 1) := by
          rw [hins]
          simp only [List.length_append, List.length_reverse, List.length_cons]
          rw [← h.inserted_len_eq, h.batch_len]
        have hlen2 : (insertedEntries (α := α)
            ((s.events ++ [Event.insertBatch (e :: s.batchRev).reverse none]) ++
              [Event.updateProgress v "importing"
                (some (s.nImported + (s.batchLen + 1))) none])).length =
            s.nImported + (s.batchLen + 1) := by
          rw [insertedEntries_append]
          simp only [insertedEntries, List.append_nil]
          exact hlen1
        refine progressAccurate_append_cb cb v _ ?_ ?_
        · refine progressAccurate_append (progressAccurate_append h.prog_acc ?_) ?_
          · intro p hp
            simp [progressEventValue] at hp
          · intro p hp
            simp only [progressEventValue, Option.some.injEq] at hp
            rw [← hp, hlen1]
        · rw [hlen2]
    · rw [if_neg hu]
      refine ⟨_, rfl, ?_⟩
      have hpv : progressValues (α := α)
          (s.events ++ [Event.insertBatch (e :: s.batchRev).reverse none]) =
          progressValues s.events := by
        rw [progressValues_append]; simp [progressValues]
      constructor
      · simp
      · simp
      · simp only [List.reverse_nil, List.append_nil]
        rw [hins, ← h.conserve]
        simp
      · simp only []
        rw [hins]
        simp only [List.length_append, List.length_reverse, List.length_cons]
        rw [← h.inserted_len_eq, h.batch_len]
      · simp only []
        rw [countInserts_append]
        simp only [countInserts, h.inserts_eq]
      · simp only []
        rw [h.thousand_mul, hbl]
        omega
      · simp only []
        have := h.lastUpd_le
        omega
      · exact h.task_status
      · exact h.task_error
      · exact h.task_count
      · exact h.task_prog
      · simp only [hpv]
        exact h.chain
      · simp only [hpv]
        intro p hp
        obtain ⟨k, hk1, hk2, hk3⟩ := h.vals p hp
        exact ⟨k, hk1, by omega, hk3⟩
      · simp only [hpv]
        exact h.last_val
      · simp only []
        refine countsAccurate_append h.counts ?_
        intro p st k er hctr; cases hctr
      · simp only []
        omega
      · exact h.lastUpd_mult
      · simp only []
        refine progressAccurate_append h.prog_acc ?_
        intro p hp
        simp [progressEventValue] at hp
  · rw [loopStep]
    rw [if_neg hb]
    refine ⟨_, rfl, ?_⟩
    constructor
    · simp [h.batch_len]
    · simp only []
      omega
    · simp only []
      rw [← h.conserve]
      simp
    · exact h.inserted_len_eq
    · exact h.inserts_eq
    · exact h.thousand_mul
    · exact h.lastUpd_le
    · exact h.task_status
    · exact h.task_error
    · exact h.task_count
    · exact h.task_prog
    · exact h.chain
    · exact h.vals
    · exact h.last_val
    · exact h.counts
    · exact h.gap_lt
    · exact h.lastUpd_mult
    · exact h.prog_acc

/-- The invariant holds at loop entry. -/
theorem loopInv_init {α : Type} (total : Nat) (fmt : String) :
    LoopInv (α := α) total []
      ⟨[], 0, 0, 0, 0, [Event.createDictionary fmt],
        ⟨"importing", 0, 0, none⟩⟩ := by
  constructor
  · rfl
  · norm_num
  · simp [insertedEntries]
  · simp [insertedEntries]
  · simp [countInserts]
  · simp
  · exact le_rfl
  · rfl
  · rfl
  · rfl
  · simp
  · simp [progressValues]
  · simp [progressValues]
  · exact Or.inl ⟨rfl, by simp [progressValues]⟩
  · intro i p st k er hi
    cases i with
    | zero => cases hi
    | succ n => simp [List.get?] at hi
  · norm_num
  · exact ⟨0, rfl⟩
  · intro i p hp
    cases i with
    | zero => simp [List.get?, progressEventValue] at hp
    | succ n => simp [List.get?] at hp

/-- Running the loop over a stream with no insert failures succeeds and
maintains the invariant. -/
theorem runLoop_inv {α : Type} (env : ImportEnv α) (cb : Bool) (total : Nat)
    (hnf : ∀ k, env.insertFail k = none) :
    ∀ (es : List α) (s : LoopState α) (processed : List α),
      LoopInv total processed s →
      ∃ s2, runLoop env cb total es s = Except.ok s2 ∧
        LoopInv total (processed ++ es) s2 := by
  intro es
  induction es with
  | nil =>
      intro s processed h
      exact ⟨s, rfl, by simpa using h⟩
  | cons e rest ih =>
      intro s processed h
      obtain ⟨s2, hs2, hinv⟩ := loopStep_inv e (hnf s.inserts) h
      obtain ⟨s3, hs3, hinv3⟩ := ih s2 (processed ++ [e]) hinv
      refine ⟨s3, ?_, by simpa [List.append_assoc] using hinv3⟩
      rw [runLoop, hs2]
      exact hs3

/-- With a supported format, an error-free parse and error-free inserts,
the guarded region succeeds; the trace it returns conserves the entries,
dispatches exactly the ceiling number of batches, reports accurate counts,
and writes monotone capped progress values. -/
theorem tryRegion_success {α : Type} (env : ImportEnv α) (cb : Bool)
    (hfmt : SUPPORTED_FORMATS.contains env.format = true)
    (hparse : env.parseError = none)
    (hnf : ∀ k, env.insertFail k = none) :
    ∃ events task,
      tryRegion env cb = Except.ok (events, task, env.entries.length) ∧
      insertedEntries events = env.entries ∧
      countInserts events = (env.entries.length + 999) / 1000 ∧
      countsAccurate events ∧
      List.Chain' (· ≤ ·) (progressValues events) ∧
      (∀ p ∈ progressValues events, ∃ k, 5000 ≤ k ∧
        k ≤ env.entries.length ∧ p = progressOf k env.totalCount) ∧
      progressAccurate env.totalCount events ∧
      task.status = "importing" ∧ task.error = none := by
  obtain ⟨s, hrun, hinv⟩ := runLoop_inv env cb env.totalCount
    hnf env.entries ⟨[], 0, 0, 0, 0, [Event.createDictionary env.format],
      ⟨"importing", 0, 0, none⟩⟩ [] (loopInv_init env.totalCount env.format)
  simp only [List.nil_append] at hinv
  have hNlen : (insertedEntries s.events).length + s.batchLen =
      env.entries.length := by
    have := congrArg List.length hinv.conserve
    simpa [hinv.batch_len] using this
  have himp : s.nImported + s.batchLen = env.entries.length := by
    rw [hinv.inserted_len_eq]; exact hNlen
  rw [tryRegion]
  simp only [hfmt, if_pos, hrun, hparse]
  by_cases hbz : s.batchLen = 0
  · have hbnil : s.batchRev = [] := by
      have := hinv.batch_len
      rw [hbz] at this
      exact List.eq_nil_of_length_eq_zero this
    rw [if_neg (by omega)]
    refine ⟨s.events, s.task, ?_, ?_, ?_, hinv.counts, hinv.chain, ?_,
      hinv.prog_acc, hinv.task_status, hinv.task_error⟩
    · rw [show s.nImported = env.entries.length by omega]
    · rw [← hinv.conserve, hbnil]
      simp
    · rw [← hinv.inserts_eq]
      have h1000 := hinv.thousand_mul
      omega
    · intro p hp
      obtain ⟨k, hk1, hk2, hk3⟩ := hinv.vals p hp
      exact ⟨k, hk1, by omega, hk3⟩
  · rw [if_pos hbz, hnf s.inserts]
    rw [show s.nImported + s.batchLen = env.entries.length from himp]
    refine ⟨s.events ++ [Event.insertBatch s.batchRev.reverse none], s.task,
      rfl, ?_, ?_, ?_, ?_, ?_, ?_, hinv.task_status, hinv.task_error⟩
    · rw [insertedEntries_append]
      simp only [insertedEntries, List.append_nil]
      exact hinv.conserve
    · rw [countInserts_append]
      simp only [countInserts]
      have h1000 := hinv.thousand_mul
      have hb999 := hinv.batch_le
      rw [← hinv.inserts_eq]
      omega
    · exact countsAccurate_append hinv.counts
        (by intro p st k er hctr; cases hctr)
    · rw [progressValues_append]
      simp only [progressValues, List.append_nil]
      exact hinv.chain
    · rw [progressValues_append]
      simp only [progressValues, List.append_nil]
      intro p hp
      obtain ⟨k, hk1, hk2, hk3⟩ := hinv.vals p hp
      exact ⟨k, hk1, by omega, hk3⟩
    · refine progressAccurate_append hinv.prog_acc ?_
      intro p hp
      simp [progressEventValue] at hp

/-- A fully successful import: the final record, task and trace — the loop
trace `pre` followed by the completion write and the optional final
callback — with conservation, batch count, accurate counts, monotone
progress ending at exactly 1, and every loop-time progress value tied
positionally to the entries persisted before it. -/
theorem runImport_success {α : Type} (env : ImportEnv α) (cb : Bool)
    (hname : env.nameExists = false)
    (hfmt : SUPPORTED_FORMATS.contains env.format = true)
    (hparse : env.parseError = none)
    (hnf : ∀ k, env.insertFail k = none) :
    ∃ pre,
      runImport env cb =
        ⟨pre ++
           [Event.updateProgress 1 "completed" (some env.entries.length) none] ++
           (if cb then [Event.progressCallback 1 env.entries.length] else []),
         some ⟨"completed", 1, env.entries.length, none⟩,
         Except.ok ()⟩ ∧
      insertedEntries (pre ++
          [Event.updateProgress 1 "completed" (some env.entries.length) none] ++
          (if cb then [Event.progressCallback 1 env.entries.length] else [])) =
        env.entries ∧
      countInserts (pre ++
          [Event.updateProgress 1 "completed" (some env.entries.length) none] ++
          (if cb then [Event.progressCallback 1 env.entries.length] else [])) =
        (env.entries.length + 999) / 1000 ∧
      countsAccurate (pre ++
          [Event.updateProgress 1 "completed" (some env.entries.length) none] ++
          (if cb then [Event.progressCallback 1 env.entries.length] else [])) ∧
      List.Chain' (· ≤ ·) (progressValues (pre ++
          [Event.updateProgress 1 "completed" (some env.entries.length) none] ++
          (if cb then [Event.progressCallback 1 env.entries.length] else []))) ∧
      (progressValues (pre ++
          [Event.updateProgress 1 "completed" (some env.entries.length) none] ++
          (if cb then [Event.progressCallback 1 env.entries.length]
           else []))).getLast? = some 1 ∧
      progressAccurate env.totalCount pre ∧
      ∀ p ∈ progressValues pre, ∃ k, 5000 ≤ k ∧
        k ≤ env.entries.length ∧ p = progressOf k env.totalCount := by
  obtain ⟨events, task, htr, hcons, hcount, hacc, hchain, hvals, hpacc, hst,
    herr⟩ := tryRegion_success env cb hfmt hparse hnf
  rw [runImport]
  simp only [hname, Bool.false_eq_true, if_false, htr]
  refine ⟨events, ?_, ?_, ?_, ?_, ?_, ?_, hpacc, hvals⟩
  · rw [herr]
  · rw [insertedEntries_append, insertedEntries_cb, insertedEntries_append]
    simp only [insertedEntries, List.append_nil]
    exact hcons
  · rw [countInserts_append, countInserts_cb, countInserts_append]
    simp only [countInserts]
    omega
  · refine countsAccurate_append_cb cb 1 env.entries.length ?_
    refine countsAccurate_append hacc ?_
    intro p st k er hctr
    injection hctr with h1 h2 h3 h4
    injection h3 with h3
    subst h3
    rw [hcons]
  · rw [progressValues_append, progressValues_append, progressValues_cb]
    simp only [progressValues]
    rw [List.append_assoc]
    rw [List.chain'_append]
    refine ⟨hchain, ?_, ?_⟩
    · cases cb <;> simp [List.chain'_cons]
    · intro x hx y hy
      simp only [List.singleton_append, List.head?_cons, Option.mem_def,
        Option.some.injEq] at hy
      subst hy
      rcases List.mem_getLast?_eq_getLast hx with ⟨hne, -⟩
      have hxmem : x ∈ progressValues events := List.mem_of_mem_getLast? hx
      obtain ⟨k, -, -, hk3⟩ := hvals x hxmem
      rw [hk3]
      exact progressOf_le_one k env.totalCount
  · rw [progressValues_append, progressValues_append, progressValues_cb]
    simp only [progressValues]
    rw [List.append_assoc]
    cases cb
    · rw [show (([(1 : ℚ)] ++ if (false : Bool) = true then [(1 : ℚ)] else []))
        = [(1 : ℚ)] from rfl]
      exact List.getLast?_concat _
    · rw [show (([(1 : ℚ)] ++ if (true : Bool) = true then [(1 : ℚ)] else []))
        = [(1 : ℚ), 1] from rfl]
      rw [show (progressValues events ++ [(1 : ℚ), 1]) =
        (progressValues events ++ [(1 : ℚ)]) ++ [(1 : ℚ)] by simp]
      exact List.getLast?_concat _

/-- Every failing import that got past the uniqueness check records the
failure in the store and the task with the raised message, and rolls back
nothing. -/
theorem runImport_failure {α : Type} (env : ImportEnv α) (cb : Bool)
    (hname : env.nameExists = false) {msg : String}
    (hfail : (runImport env cb).outcome = Except.error msg) :
    ∃ pre task0,
      (runImport env cb).events =
        pre ++ [Event.updateProgress 0 "failed" none (some msg)] ∧
      (runImport env cb).task = some task0 ∧
      task0.status = "failed" ∧ task0.error = some msg ∧
      insertedEntries (runImport env cb).events =
        insertedEntries pre := by
  rw [runImport] at hfail ⊢
  simp only [hname, Bool.false_eq_true, if_false] at hfail ⊢
  cases htr : tryRegion env cb with
  | ok trip =>
      obtain ⟨events, task, nImported⟩ := trip
      rw [htr] at hfail
      cases hfail
  | error f =>
      obtain ⟨events, task, m⟩ := f
      rw [htr] at hfail
      injection hfail with hm
      subst hm
      refine ⟨events, _, rfl, rfl, rfl, rfl, ?_⟩
      rw [insertedEntries_append]
      simp [insertedEntries]

/-- When the generator raises after all its yields and every dispatched
insert succeeded, the import fails with that message and the final task
keeps the values of the last progress update: entry count
`5000 * (1000 * (N / 1000) / 5000)` and the matching progress fraction
(0 when no update ever fired). -/
theorem runImport_parse_error {α : Type} (env : ImportEnv α) (cb : Bool)
    (msg : String) (hname : env.nameExists = false)
    (hfmt : SUPPORTED_FORMATS.contains env.format = true)
    (hmsg : env.parseError = some msg)
    (hnf : ∀ k, env.insertFail k = none) :
    ∃ events,
      runImport env cb =
        ⟨events ++ [Event.updateProgress 0 "failed" none (some msg)],
         some ⟨"failed",
           (if 5000 * (1000 * (env.entries.length / 1000) / 5000) = 0 then 0
            else progressOf
              (5000 * (1000 * (env.entries.length / 1000) / 5000))
              env.totalCount),
           5000 * (1000 * (env.entries.length / 1000) / 5000),
           some msg⟩,
         Except.error msg⟩ := by
  obtain ⟨s, hrun, hinv⟩ := runLoop_inv env cb env.totalCount
    hnf env.entries ⟨[], 0, 0, 0, 0, [Event.createDictionary env.format],
      ⟨"importing", 0, 0, none⟩⟩ [] (loopInv_init env.totalCount env.format)
  simp only [List.nil_append] at hinv
  have hNlen : s.nImported + s.batchLen = env.entries.length := by
    have := congrArg List.length hinv.conserve
    rw [hinv.inserted_len_eq]
    simpa [hinv.batch_len] using this
  obtain ⟨i0, hi0⟩ : ∃ i0, s.nImported = 1000 * i0 := ⟨_, hinv.thousand_mul⟩
  obtain ⟨m, hm⟩ := hinv.lastUpd_mult
  have hgap := hinv.gap_lt
  have hble := hinv.batch_le
  have hlastle := hinv.lastUpd_le
  have hlast_eq : s.lastUpd =
      5000 * (1000 * (env.entries.length / 1000) / 5000) := by omega
  rw [runImport]
  simp only [hname, Bool.false_eq_true, if_false]
  rw [tryRegion]
  simp only [hfmt, if_pos, hrun, hmsg]
  refine ⟨s.events, ?_⟩
  rw [hinv.task_prog, hinv.task_count, hlast_eq]

/-- Claim C1 (corrected): for an unknown-format file the orchestrator does
NOT reject before creating the record — `create_dictionary` and the
ImportTask happen first, and the unsupported-format `ValueError` is raised
by the parser factory inside the guarded region, so the import ends with a
failed record and task and the error re-raised. -/
theorem C1_unknown_format_after_record {α : Type} (env : ImportEnv α)
    (cb : Bool) (hfmt : env.format = "unknown")
    (hname : env.nameExists = false) :
    runImport env cb =
      ⟨[Event.createDictionary "unknown",
        Event.updateProgress 0 "failed" none (some "不支持的词典格式: unknown")],
       some ⟨"failed", 0, 0, some "不支持的词典格式: unknown"⟩,
       Except.error "不支持的词典格式: unknown"⟩ := by
  rw [runImport]
  simp only [hname, Bool.false_eq_true, if_false]
  rw [tryRegion, hfmt]
  rw [show SUPPORTED_FORMATS.contains "unknown" = false from rfl]
  rfl

/-- The concrete environment of claim C1: an existing file whose extension
maps to no parser, a free dictionary name, nothing else special. -/
def envC1 : ImportEnv Nat := ⟨"d", "unknown", false, 0, [], none, fun _ => none⟩

/-- Claim C1, witness: the amended statement at the concrete unknown-format
environment. -/
theorem C1_unknown_format_after_record_witness :
    runImport envC1 true =
      ⟨[Event.createDictionary "unknown",
        Event.updateProgress 0 "failed" none (some "不支持的词典格式: unknown")],
       some ⟨"failed", 0, 0, some "不支持的词典格式: unknown"⟩,
       Except.error "不支持的词典格式: unknown"⟩ :=
  C1_unknown_format_after_record envC1 true rfl rfl

/-- Claim C1, counterexample to the claim as stated: importing an
unknown-format file calls `create_dictionary` first (it is the first
gateway call of the trace) and leaves an ImportTask behind, contradicting
"raises without first calling createDictionary, so no record and no
ImportTask exist afterwards". -/
theorem C1_record_and_task_exist_on_unknown_format :
    (runImport envC1 true).events.head? =
      some (Event.createDictionary "unknown") ∧
    (runImport envC1 true).task =
      some ⟨"failed", 0, 0, some "不支持的词典格式: unknown"⟩ ∧
    (some (⟨"failed", 0, 0, some "不支持的词典格式: unknown"⟩ : ImportTask) ≠
      none) := by
  refine ⟨rfl, rfl, ?_⟩
  simp

/-- Claim C3: a source yielding N valid entries with error-free parsing and
persistence completes with a reported entry count of exactly N, the
persisted entries are exactly the yielded ones in order, and the number of
batch-insert calls dispatched is `(N + 999) / 1000 = ceil(N / 1000)` (the
last batch holding the remainder). -/
theorem C3_batch_count_conservation {α : Type} (env : ImportEnv α)
    (cb : Bool) (hname : env.nameExists = false)
    (hfmt : SUPPORTED_FORMATS.contains env.format = true)
    (hparse : env.parseError = none)
    (hnf : ∀ k, env.insertFail k = none) :
    ∃ events,
      runImport env cb =
        ⟨events, some ⟨"completed", 1, env.entries.length, none⟩,
          Except.ok ()⟩ ∧
      insertedEntries events = env.entries ∧
      countInserts events = (env.entries.length + 999) / 1000 := by
  obtain ⟨pre, h1, h2, h3, -, -, -, -, -⟩ :=
    runImport_success env cb hname hfmt hparse hnf
  exact ⟨pre ++
    [Event.updateProgress 1 "completed" (some env.entries.length) none] ++
    (if cb then [Event.progressCallback 1 env.entries.length] else []),
    h1, h2, h3⟩

/-- The concrete environment of the C3 witness: three entries, one batch. -/
def envC3 : ImportEnv Nat :=
  ⟨"d", "csv", false, 3, [10, 20, 30], none, fun _ => none⟩

/-- Claim C3, witness: three yielded entries give a completed import with
entry count 3 and exactly one dispatched batch. -/
theorem C3_batch_count_conservation_witness :
    ∃ events,
      runImport envC3 true =
        ⟨events, some ⟨"completed", 1, 3, none⟩, Except.ok ()⟩ ∧
      insertedEntries events = [10, 20, 30] ∧
      countInserts events = 1 :=
  C3_batch_count_conservation envC3 true rfl rfl rfl (fun _ => rfl)

/-- Claim C4: in one successful import whose total-count estimate is (per
the parser contract of section 4.2 of the spec) at least the number of
yielded entries, the trace splits into the loop writes `pre` followed by
exactly the finalization writes (the completed store update and the final
callback, all carrying exactly 1); the whole written sequence is
non-decreasing and ends at exactly 1; and every value written before
finalization — at trace position `i` — equals
`min(persisted-before-i / estimatedTotal, 0.99)`, where persisted-before-i
is the number of entries actually persisted before that write, and is
therefore strictly below 1. -/
theorem C4_progress_monotone_capped {α : Type} (env : ImportEnv α)
    (cb : Bool) (hname : env.nameExists = false)
    (hfmt : SUPPORTED_FORMATS.contains env.format = true)
    (hparse : env.parseError = none)
    (hnf : ∀ k, env.insertFail k = none)
    (htot : env.entries.length ≤ env.totalCount) :
    ∃ pre,
      runImport env cb =
        ⟨pre ++
           [Event.updateProgress 1 "completed" (some env.entries.length) none] ++
           (if cb then [Event.progressCallback 1 env.entries.length] else []),
         some ⟨"completed", 1, env.entries.length, none⟩,
         Except.ok ()⟩ ∧
      List.Chain' (· ≤ ·) (progressValues (pre ++
          [Event.updateProgress 1 "completed" (some env.entries.length) none] ++
          (if cb then [Event.progressCallback 1 env.entries.length] else []))) ∧
      (progressValues (pre ++
          [Event.updateProgress 1 "completed" (some env.entries.length) none] ++
          (if cb then [Event.progressCallback 1 env.entries.length]
           else []))).getLast? = some 1 ∧
      ∀ i p, (pre.get? i).bind progressEventValue = some p →
        p = min (((insertedEntries (pre.take i)).length : ℚ) /
          (env.totalCount : ℚ)) (99 / 100) ∧ p < 1 := by
  obtain ⟨pre, h1, -, -, -, hchain, hlast, hpacc, hvals⟩ :=
    runImport_success env cb hname hfmt hparse hnf
  refine ⟨pre, h1, hchain, hlast, ?_⟩
  intro i p hp
  have hform := hpacc i p hp
  have hmem := mem_progressValues_of_get hp
  obtain ⟨k, hk5, hkN, -⟩ := hvals p hmem
  have htpos : 0 < env.totalCount := by omega
  constructor
  · rw [hform, progressOf, if_pos htpos]
  · rw [hform]
    exact progressOf_lt_one htpos

/-- The concrete environment of the C4 witness. -/
def envC4 : ImportEnv Nat :=
  ⟨"json", "json", false, 3, [1, 2, 3], none, fun _ => none⟩

/-- Claim C4, witness: the theorem at a concrete small import whose
estimate equals its entry count. -/
theorem C4_progress_monotone_capped_witness :
    ∃ pre,
      runImport envC4 true =
        ⟨pre ++ [Event.updateProgress 1 "completed" (some 3) none] ++
           (if (true : Bool) then [Event.progressCallback 1 3] else []),
         some ⟨"completed", 1, 3, none⟩, Except.ok ()⟩ ∧
      List.Chain' (· ≤ ·) (progressValues (pre ++
          [Event.updateProgress 1 "completed" (some 3) none] ++
          (if (true : Bool) then [Event.progressCallback 1 3] else []))) ∧
      (progressValues (pre ++
          [Event.updateProgress 1 "completed" (some 3) none] ++
          (if (true : Bool) then [Event.progressCallback 1 3]
           else []))).getLast? = some 1 ∧
      ∀ i p, (pre.get? i).bind progressEventValue = some p →
        p = min (((insertedEntries (pre.take i)).length : ℚ) /
          ((3 : Nat) : ℚ)) (99 / 100) ∧ p < 1 :=
  C4_progress_monotone_capped envC4 true rfl rfl rfl (fun _ => rfl)
    (by decide)

/-- Claim C5 (corrected): whenever the orchestrator writes an entry count —
at a progress boundary or at completion — it equals the exact number of
entries persisted at that point (never an estimate), and a successful run
finishes with the task reporting exactly the persisted total.  The
count is however NOT refreshed at every batch, and on failure the task
keeps the last written value (see the counterexample). -/
theorem C5_entry_count_exact_at_writes {α : Type} (env : ImportEnv α)
    (cb : Bool) (hname : env.nameExists = false)
    (hfmt : SUPPORTED_FORMATS.contains env.format = true)
    (hparse : env.parseError = none)
    (hnf : ∀ k, env.insertFail k = none) :
    ∃ events,
      runImport env cb =
        ⟨events, some ⟨"completed", 1, env.entries.length, none⟩,
          Except.ok ()⟩ ∧
      (insertedEntries events).length = env.entries.length ∧
      countsAccurate events := by
  obtain ⟨pre, h1, h2, -, hacc, -, -, -, -⟩ :=
    runImport_success env cb hname hfmt hparse hnf
  exact ⟨pre ++
    [Event.updateProgress 1 "completed" (some env.entries.length) none] ++
    (if cb then [Event.progressCallback 1 env.entries.length] else []),
    h1, by rw [h2], hacc⟩

/-- The concrete environment of the C5 witness. -/
def envC5w : ImportEnv Nat :=
  ⟨"ecdict", "ecdict", false, 2, [7, 8], none, fun _ => none⟩

/-- Claim C5, witness: the amended statement at a concrete import. -/
theorem C5_entry_count_exact_at_writes_witness :
    ∃ events,
      runImport envC5w true =
        ⟨events, some ⟨"completed", 1, 2, none⟩, Except.ok ()⟩ ∧
      (insertedEntries events).length = 2 ∧
      countsAccurate events :=
  C5_entry_count_exact_at_writes envC5w true rfl rfl rfl (fun _ => rfl)

/-- The concrete environment of the C5 counterexample: 1000 entries are
persisted as one batch, then the generator raises. -/
def envC5 : ImportEnv Nat :=
  ⟨"d", "csv", false, 3000, List.replicate 1000 0, some "boom",
    fun _ => none⟩

set_option maxRecDepth 40000 in
/-- Claim C5, counterexample to the claim as stated: after the failure the
1000 entries of the first batch are persisted, but the final ImportTask
still reports entry count 0 — a stale value, not the persisted count. -/
theorem C5_task_count_stale_after_batch :
    (insertedEntries (runImport envC5 true).events).length = 1000 ∧
    (runImport envC5 true).task =
      some ⟨"failed", 0, 0, some "boom"⟩ ∧
    (0 : Nat) ≠ 1000 := by
  refine ⟨rfl, rfl, by norm_num⟩

/-- Claim C6 (corrected): any error raised inside the guarded region — from
parsing or persistence, after the record exists — is recorded in the store
as status failed with progress 0.0 and the error message, recorded in the
ImportTask as status failed with the message (though the task keeps its
previous progress, see the counterexample), re-raised unmodified, and no
already-persisted batch is rolled back. -/
theorem C6_failure_recorded_and_reraised {α : Type} (env : ImportEnv α)
    (cb : Bool) (hname : env.nameExists = false) (msg : String)
    (hfail : (runImport env cb).outcome = Except.error msg) :
    ∃ pre task0,
      (runImport env cb).events =
        pre ++ [Event.updateProgress 0 "failed" none (some msg)] ∧
      (runImport env cb).task = some task0 ∧
      task0.status = "failed" ∧ task0.error = some msg ∧
      insertedEntries (runImport env cb).events =
        insertedEntries pre :=
  runImport_failure env cb hname hfail

/-- The concrete environment of the C6 witness: the parse raises
immediately. -/
def envC6w : ImportEnv Nat :=
  ⟨"d", "csv", false, 0, [], some "boom", fun _ => none⟩

/-- Claim C6, witness: the amended statement at a concrete failing
run. -/
theorem C6_failure_recorded_and_reraised_witness :
    ∃ pre task0,
      (runImport envC6w true).events =
        pre ++ [Event.updateProgress 0 "failed" none (some "boom")] ∧
      (runImport envC6w true).task = some task0 ∧
      task0.status = "failed" ∧ task0.error = some "boom" ∧
      insertedEntries (runImport envC6w true).events =
        insertedEntries pre :=
  C6_failure_recorded_and_reraised envC6w true rfl "boom" rfl

/-- The concrete environment of the C6 counterexample: 5000 entries flush
five batches and trigger one progress update, then the generator raises. -/
def envC6 : ImportEnv Nat :=
  ⟨"d", "csv", false, 5000, List.replicate 5000 0, some "boom",
    fun _ => none⟩

/-- Claim C6, counterexample to the claim as stated: on failure the
ImportTask keeps its last progress value 0.99 — the orchestrator resets
progress to 0.0 only in the durable store, not in the task. -/
theorem C6_task_progress_not_reset :
    (runImport envC6 true).task =
      some ⟨"failed", 99 / 100, 5000, some "boom"⟩ ∧
    ((99 : ℚ) / 100) ≠ 0 := by
  obtain ⟨events, heq⟩ :=
    runImport_parse_error envC6 true "boom" rfl rfl rfl (fun _ => rfl)
  refine ⟨?_, by norm_num⟩
  rw [heq]
  have hN : envC6.entries.length = 5000 := by
    rw [show envC6.entries = List.replicate 5000 0 from rfl,
      List.length_replicate]
  rw [hN, show envC6.totalCount = 5000 from rfl]
  norm_num [progressOf]

end EnglishRead
